import Mathlib

set_option maxHeartbeats 1000000

/-!
Verification development for the metamind typed-hypergraph tensor library.
The repository ships only the demonstration driver `examples/metamind_demo.cpp`;
the header `metamind.hpp` that it includes (threads, shapes, tensors, graph
schemas, nestors, pullbacks, pushforwards and the type-list utilities) is not
among the sources.  Every definition below whose doc comment starts with
"Modelled from the spec" therefore reconstructs that missing header from the
specification text, staying as close as possible to its words.
-/

/-- Modelled from the spec: missing header type `Thread` (spec 3): a named
dimension, an identity tag plus a static extent.  Identities are modelled as
natural-number codes. -/
structure Thread where
  id : Nat
  extent : Nat
  deriving DecidableEq

/-- Modelled from the spec: missing header type `Shape` (spec 3): an ordered
sequence of threads. -/
abbrev Shape := List Thread

/-- Modelled from the spec: the element count determined by a shape, the
product of the thread extents computed by walking the thread list. -/
def numel : Shape → Nat
  | [] => 1
  | t :: ts => t.extent * numel ts

/-- Modelled from the spec: missing header type `Tensor<Shape>` (spec 3): it
owns a data payload sized according to the shape.  Elements are modelled as
integers (the element type is a parameter the core never inspects). -/
structure Tensor (s : Shape) where
  data : List Int
  size_eq : data.length = numel s

/-- Modelled from the spec: missing header utility `contains_v` (demonstrated
in metamind_demo.cpp, Demo 6): membership test on a type list, with types
modelled as natural-number codes. -/
def contains_v (x : Nat) : List Nat → Bool
  | [] => false
  | y :: ys => x == y || contains_v x ys

/-- Modelled from the spec: missing header utility `index_of` (demonstrated in
metamind_demo.cpp, Demo 6): position of a code in a type list; returns the
list length when the code is absent. -/
def index_of (x : Nat) : List Nat → Nat
  | [] => 0
  | y :: ys => if x = y then 0 else index_of x ys + 1

/-- Modelled from the spec: missing header type `Edge` (spec 3): source nodes,
one destination node, and an attached Operation capability.  Nodes are
identified by natural-number codes; the opaque `Operation::apply` becomes the
function `op` from the source payloads to the destination payload, and
`Operation::adjoint` becomes `adj`, which from the destination's gradient
payload produces the per-source gradient contributions that the backward pass
add-assigns into the source gradient slots (spec 4.3). -/
structure Edge where
  srcs : List Nat
  dst : Nat
  op : List (List Int) → List Int
  adj : List Int → List (List Int)

/-- Modelled from the spec: missing header type `GraphSchema` (spec 3): a set
of nodes (identifier paired with its shape) plus a set of edges.  The edge
list is kept in the topological traversal order that the schema computes once
at construction (spec 9). -/
structure GraphSchema where
  nodes : List (Nat × Shape)
  edges : List Edge

/-- The node identifiers of a schema. -/
def GraphSchema.nodeIds (g : GraphSchema) : List Nat :=
  g.nodes.map Prod.fst

/-- The destination node of every edge, in edge order. -/
def dsts (edges : List Edge) : List Nat :=
  edges.map Edge.dst

/-- Modelled from the spec: duplicate-producer check used at schema
construction (spec 4.2: at most one producing edge per node). -/
def nodupB : List Nat → Bool
  | [] => true
  | x :: xs => !(contains_v x xs) && nodupB xs

/-- Modelled from the spec: the topological-order check on the stored edge
list: every source of an edge is either already produced by an earlier edge
(accumulated in `P`) or is a leaf, i.e. produced by no edge at all (`D` is the
set of all destinations). -/
def topoAux (D : List Nat) (P : List Nat) : List Edge → Bool
  | [] => true
  | e :: rest =>
      e.srcs.all (fun s => contains_v s P || !(contains_v s D)) &&
        topoAux D (e.dst :: P) rest

/-- Modelled from the spec: the stored edge list is topologically sorted
(spec 4.2: every edge's sources are computed before the edge itself runs). -/
def topoSorted (edges : List Edge) : Bool :=
  topoAux (dsts edges) [] edges

/-- Modelled from the spec: schema construction-time validation (spec 3, 7):
edges must be in topological order over an acyclic graph and no node may have
two producing edges; a schema violating this fails to assemble. -/
def GraphSchema.wf (g : GraphSchema) : Bool :=
  topoSorted g.edges && nodupB (dsts g.edges)

/-- Modelled from the spec: missing header type `Nestor<GraphSchema>`
(spec 3): one value tensor payload and one gradient tensor payload per node,
addressed by node identity. -/
structure Nestor (g : GraphSchema) where
  vals : Nat → List Int
  grads : Nat → List Int

/-- Modelled from the spec: `Nestor::get<N>()` (spec 4.1): the value payload
of node `n`; the membership requirement is the construction-time check that
rejects node types outside the schema (there is no runtime error channel, so
the accessor is total once the check holds). -/
def Nestor.get {g : GraphSchema} (st : Nestor g) (n : Nat)
    (_h : contains_v n g.nodeIds = true) : List Int :=
  st.vals n

/-- Modelled from the spec: `Nestor::d<N>()` (spec 4.1): the gradient payload
of node `n`, guarded by the same construction-time membership check. -/
def Nestor.d {g : GraphSchema} (st : Nestor g) (n : Nat)
    (_h : contains_v n g.nodeIds = true) : List Int :=
  st.grads n

/-- Pointwise update of a node-indexed family of payloads. -/
def updateF (v : Nat → List Int) (n : Nat) (t : List Int) : Nat → List Int :=
  fun m => if m = n then t else v m

/-- Modelled from the spec: writing through the mutable reference returned by
`get` (spec 4.1: `get` exposes node `n`'s value slot for mutation). -/
def Nestor.setVal {g : GraphSchema} (st : Nestor g) (n : Nat) (t : List Int) :
    Nestor g :=
  { st with vals := updateF st.vals n t }

/-- Modelled from the spec: writing through the mutable reference returned by
`d` (spec 4.1: `d` exposes node `n`'s gradient slot for mutation). -/
def Nestor.setGrad {g : GraphSchema} (st : Nestor g) (n : Nat) (t : List Int) :
    Nestor g :=
  { st with grads := updateF st.grads n t }

/-- Modelled from the spec: one forward step (spec 4.2): call the edge's
operation on the current source values and store the result into the
destination's value slot, overwriting any prior value. -/
def fstep (v : Nat → List Int) (e : Edge) : Nat → List Int :=
  updateF v e.dst (e.op (e.srcs.map v))

/-- Modelled from the spec: `Nestor::forward()` on the value state (spec 4.2):
visit every edge in the schema's stored (topological) order. -/
def forwardVals (edges : List Edge) (v : Nat → List Int) : Nat → List Int :=
  edges.foldl fstep v

/-- Elementwise addition of payloads (the add-assign of gradients). -/
def addVec (a b : List Int) : List Int :=
  List.zipWith (· + ·) a b

/-- Add-assign a list of (node, contribution) pairs into the gradient state,
in order. -/
def applyIncs (gr : Nat → List Int) (ps : List (Nat × List Int)) :
    Nat → List Int :=
  ps.foldl (fun gr p => updateF gr p.1 (addVec (gr p.1) p.2)) gr

/-- Modelled from the spec: one backward step (spec 4.3): hand the adjoint the
destination node's current gradient payload, and add-assign the resulting
contributions into the source nodes' gradient slots (never overwrite). -/
def bstep (gr : Nat → List Int) (e : Edge) : Nat → List Int :=
  applyIncs gr (e.srcs.zip (e.adj (gr e.dst)))

/-- Modelled from the spec: `Nestor::backward()` on the gradient state
(spec 4.3): visit every edge in reverse topological order; gradient slots are
never reset, only accumulated into. -/
def backwardGrads (edges : List Edge) (gr : Nat → List Int) : Nat → List Int :=
  edges.reverse.foldl bstep gr

/-- The gradient contributions destined for node `n` among one step's
(node, contribution) pairs, in the order they are add-assigned. -/
def pairIncs (ps : List (Nat × List Int)) (n : Nat) : List (List Int) :=
  (ps.filter (fun p => decide (p.1 = n))).map Prod.snd

/-- The full sequence of gradient contributions that the backward pass hands
to node `n`, collected along the processing order (the argument list is the
already-reversed edge list). -/
def bIncs : List Edge → (Nat → List Int) → Nat → List (List Int)
  | [], _, _ => []
  | e :: rest, gr, n =>
      pairIncs (e.srcs.zip (e.adj (gr e.dst))) n ++ bIncs rest (bstep gr e) n

/-- Modelled from the spec: the store of tensor payloads; payload buffers live
in a heap so that aliasing (pullback views) versus fresh materialization
(pushforward results) is observable (spec 4.4, 4.5). -/
structure Heap where
  bufs : List (List Int)

/-- Modelled from the spec: a tensor reference: its static shape, the heap
buffer holding its payload, and the map from flat element indices of the
shape to positions inside the buffer (the identity map for a tensor that owns
a freshly materialized buffer). -/
structure TRef where
  shape : Shape
  buf : Nat
  idxMap : Nat → Nat

/-- The payload buffer a reference points at. -/
def Heap.readBuf (h : Heap) (b : Nat) : List Int :=
  h.bufs.getD b []

/-- Read one element of a referenced tensor. -/
def readT (h : Heap) (r : TRef) (i : Nat) : Int :=
  (h.readBuf r.buf).getD (r.idxMap i) 0

/-- Write one element of a referenced tensor in place. -/
def writeT (h : Heap) (r : TRef) (i : Nat) (v : Int) : Heap :=
  ⟨h.bufs.set r.buf ((h.readBuf r.buf).set (r.idxMap i) v)⟩

/-- Row-major flat index of a coordinate in a shape. -/
def toFlat : Shape → List Nat → Nat
  | [], _ => 0
  | _ :: _, [] => 0
  | _ :: ts, i :: is => i * numel ts + toFlat ts is

/-- Row-major coordinate of a flat index in a shape. -/
def fromFlat : Shape → Nat → List Nat
  | [], _ => []
  | _ :: ts, n => (n / numel ts) :: fromFlat ts (n % numel ts)

/-- Modelled from the spec: construction-time validity of
`Pullback<From,To>` (spec 3, 4.4): each To thread corresponds to the From
thread at the same position, with the same identity and an extent no larger
(the restriction is taken at offset zero). -/
def Pullback.ok : Shape → Shape → Bool
  | [], [] => true
  | f :: fs, t :: ts =>
      (f.id == t.id && decide (t.extent ≤ f.extent)) && Pullback.ok fs ts
  | _, _ => false

/-- Modelled from the spec: `Pullback<From,To>::apply` (spec 4.4): a pure,
non-mutating view constructor; the result shares the source's buffer and
remaps indices, no payload is copied and no allocation happens (the heap is
returned untouched). -/
def Pullback.apply (Fr To : Shape) (h : Heap) (r : TRef) : Heap × TRef :=
  (h, ⟨To, r.buf, fun i => r.idxMap (toFlat Fr (fromFlat To i))⟩)

/-- All coordinates of a shape, in row-major order. -/
def allCoords : Shape → List (List Nat)
  | [] => [[]]
  | t :: ts => (List.range t.extent).flatMap (fun i => (allCoords ts).map (fun c => i :: c))

/-- Modelled from the spec: the retained-axis coordinates of a source
coordinate (spec 4.5): walk the source shape; a coordinate entry is kept
exactly when its axis is the next retained axis of the target shape. -/
def proj : Shape → Shape → List Nat → List Nat
  | _, [], _ => []
  | [], _ :: _, _ => []
  | _ :: _, _ :: _, [] => []
  | f :: fs, t :: ts, i :: is =>
      if f = t then i :: proj fs ts is else proj fs (t :: ts) is

/-- Modelled from the spec: construction-time validity of
`Pushforward<From,To,Reduce>` (spec 3, 4.5): every To thread must appear in
From with equal extent, in order; all remaining From threads are the
reduction axes. -/
def Pushforward.ok : Shape → Shape → Bool
  | _, [] => true
  | [], _ :: _ => false
  | f :: fs, t :: ts =>
      if f = t then Pushforward.ok fs ts else Pushforward.ok fs (t :: ts)

/-- Modelled from the spec: the payload computed by
`Pushforward<From,To,Sum>::apply` (spec 4.5): for every output element, the
sum over all input elements whose retained-axis coordinates match it, the
reduced-axis coordinates ranging over their full extents. -/
def pfData (Fr To : Shape) (inp : Nat → Int) : List Int :=
  (allCoords To).map (fun c =>
    (((allCoords Fr).filter (fun cf => decide (proj Fr To cf = c))).map
      (fun cf => inp (toFlat Fr cf))).sum)

/-- The input-element reader of a referenced source tensor. -/
def srcInp (h : Heap) (r : TRef) : Nat → Int :=
  fun j => (h.readBuf r.buf).getD (r.idxMap j) 0

/-- Modelled from the spec: `Pushforward<From,To,Sum>::apply` (spec 4.5):
allocates a new buffer holding the reduced payload and returns a reference to
it; the result never aliases the input. -/
def Pushforward.apply (Fr To : Shape) (h : Heap) (r : TRef) : Heap × TRef :=
  (⟨h.bufs ++ [pfData Fr To (srcInp h r)]⟩, ⟨To, h.bufs.length, fun i => i⟩)

/-- Modelled from the spec: the degenerate one-node schema of a single shape
(metamind_demo.cpp Demo 5: flat tensors are degenerate nestors). -/
def singleSchema (s : Shape) : GraphSchema :=
  ⟨[(0, s)], []⟩

/-- Modelled from the spec: missing header alias `TensorN<Shape>`
(metamind_demo.cpp Demo 5): a nestor over the single-node schema of the
shape. -/
def TensorN (s : Shape) : Type :=
  Nestor (singleSchema s)

/-- The nestor representation of a flat tensor: its payload in the sole
node's value slot, a zero payload in the gradient slot. -/
def TensorN.ofTensor {s : Shape} (t : Tensor s) : TensorN s :=
  ⟨fun m => if m = 0 then t.data else [],
   fun m => if m = 0 then List.replicate (numel s) 0 else []⟩

/-- A concrete thread, shape and chain schema used to exercise the
development on closed inputs: three nodes 0 → 1 → 2 over two-element
payloads. -/
def thA : Thread := ⟨0, 2⟩

/-- The two-element demonstration shape. -/
def shA : Shape := [thA]

/-- Edge from node 0 to node 1: adds one elementwise; its adjoint passes the
incoming gradient through. -/
def eAB : Edge :=
  ⟨[0], 1, fun ls => (ls.headD []).map (fun x => x + 1),
   fun gOut => [gOut]⟩

/-- Edge from node 1 to node 2: doubles elementwise; its adjoint doubles the
incoming gradient. -/
def eBC : Edge :=
  ⟨[1], 2, fun ls => (ls.headD []).map (fun x => 2 * x),
   fun gOut => [gOut.map (fun x => 2 * x)]⟩

/-- The chain schema 0 → 1 → 2. -/
def chainEdges : List Edge := [eAB, eBC]

/-- A concrete initial value state: node 0 holds [5, 7]. -/
def v0 : Nat → List Int :=
  fun n => if n = 0 then [5, 7] else []

/-- A concrete initial gradient state: node 2 is seeded with [1, 1], the
others carry [0, 0]. -/
def g0 : Nat → List Int :=
  fun n => if n = 2 then [1, 1] else [0, 0]

/-- A malformed schema in which node 1 has two producing edges. -/
def gDup : GraphSchema :=
  ⟨[(0, shA), (1, shA)],
   [⟨[0], 1, fun ls => ls.headD [], fun gOut => [gOut]⟩,
    ⟨[0], 1, fun ls => ls.headD [], fun gOut => [gOut]⟩]⟩

/-- A concrete four-element source shape for the pullback demonstration. -/
def frPB : Shape := [⟨0, 4⟩]

/-- A concrete two-element view shape for the pullback demonstration. -/
def toPB : Shape := [⟨0, 2⟩]

/-- A concrete heap holding one four-element buffer. -/
def hpPB : Heap := ⟨[[10, 20, 30, 40]]⟩

/-- A reference to the four-element buffer, with the identity index map. -/
def rPB : TRef := ⟨frPB, 0, fun i => i⟩

/-- The extra (reduced) thread of the pushforward demonstration: identity 0,
extent 3. -/
def exPF : Thread := ⟨0, 3⟩

/-- The retained shape of the pushforward demonstration: one thread of
identity 1 and extent 2. -/
def toPF : Shape := [⟨1, 2⟩]

/-- A concrete heap holding the 3 × 2 pushforward input. -/
def hpPF : Heap := ⟨[[1, 2, 3, 4, 5, 6]]⟩

/-- A reference to the pushforward input buffer. -/
def rPF : TRef := ⟨[exPF, ⟨1, 2⟩], 0, fun i => i⟩

/-- A concrete two-element tensor over the demonstration shape. -/
def tA : Tensor shA := ⟨[3, 4], by decide⟩

theorem contains_v_iff (x : Nat) (l : List Nat) : contains_v x l = true ↔ x ∈ l := by
  induction l with
  | nil => simp [contains_v]
  | cons y ys ih => simp [contains_v, ih, Nat.beq_eq_true_eq]

theorem index_of_lt_iff (x : Nat) (l : List Nat) :
    index_of x l < l.length ↔ x ∈ l := by
  induction l with
  | nil => simp [index_of]
  | cons y ys ih =>
    by_cases hxy : x = y
    · simp [index_of, hxy, Nat.succ_pos]
    · simp [index_of, hxy, Nat.succ_lt_succ_iff, ih]

theorem nodupB_nodup (l : List Nat) (h : nodupB l = true) : l.Nodup := by
  induction l with
  | nil => exact List.nodup_nil
  | cons x xs ih =>
    simp only [nodupB, Bool.and_eq_true, Bool.not_eq_true'] at h
    refine List.nodup_cons.mpr ⟨fun hm => ?_, ih h.2⟩
    have hc := (contains_v_iff x xs).mpr hm
    rw [hc] at h
    simp at h

theorem updateF_self (v : Nat → List Int) (n : Nat) (t : List Int) :
    updateF v n t n = t := by
  simp [updateF]

theorem updateF_ne (v : Nat → List Int) (n m : Nat) (t : List Int) (h : m ≠ n) :
    updateF v n t m = v m := by
  simp [updateF, h]

theorem numel_eq_prod (s : Shape) : numel s = (s.map Thread.extent).prod := by
  induction s with
  | nil => rfl
  | cons t ts ih => simp [numel, ih]

/-- C8: for every shape S, the element count of `Tensor<S>` (the size of its
data payload in elements) equals the product of the extents of S's threads. -/
theorem tensor_payload_size (s : Shape) (t : Tensor s) :
    t.data.length = (s.map Thread.extent).prod :=
  t.size_eq.trans (numel_eq_prod s)

/-- C1: accessing a node present in the schema through `get` and `d` yields
that node's value and gradient slots (mutably: a write through one is read
back, and the two slots are independent), while a node type outside the
schema fails the construction-time membership check that both accessors
require, so no runtime error channel exists. -/
theorem nestor_typed_access (g : GraphSchema) (st : Nestor g) (n : Nat)
    (h : contains_v n g.nodeIds = true) (t : List Int) :
    ((st.setVal n t).get n h = t)
    ∧ ((st.setVal n t).d n h = st.d n h)
    ∧ ((st.setGrad n t).d n h = t)
    ∧ ((st.setGrad n t).get n h = st.get n h)
    ∧ (∀ m, contains_v m g.nodeIds = true ↔ m ∈ g.nodeIds)
    ∧ (∀ m, contains_v m g.nodeIds = true ↔
        index_of m g.nodeIds < g.nodeIds.length) := by
  refine ⟨updateF_self .., rfl, updateF_self .., rfl, fun m => contains_v_iff .., fun m => ?_⟩
  rw [contains_v_iff, index_of_lt_iff]

/-- Closed instance of C1 on the single-node demonstration schema. -/
theorem nestor_typed_access_witness :
    (contains_v 0 (singleSchema shA).nodeIds = true)
    ∧ (((TensorN.ofTensor tA).setVal 0 [8, 9]).get 0 (by decide) = [8, 9]
    ∧ (((TensorN.ofTensor tA).setVal 0 [8, 9]).d 0 (by decide)
        = (TensorN.ofTensor tA).d 0 (by decide))
    ∧ (((TensorN.ofTensor tA).setGrad 0 [8, 9]).d 0 (by decide) = [8, 9])
    ∧ (((TensorN.ofTensor tA).setGrad 0 [8, 9]).get 0 (by decide)
        = (TensorN.ofTensor tA).get 0 (by decide))
    ∧ (∀ m, contains_v m (singleSchema shA).nodeIds = true
        ↔ m ∈ (singleSchema shA).nodeIds)
    ∧ (∀ m, contains_v m (singleSchema shA).nodeIds = true ↔
        index_of m (singleSchema shA).nodeIds
          < (singleSchema shA).nodeIds.length)) :=
  ⟨by decide, nestor_typed_access (singleSchema shA) (TensorN.ofTensor tA) 0 (by decide) [8, 9]⟩

theorem countP_le_one_of_nodup (l : List Nat) (n : Nat) (h : l.Nodup) :
    l.countP (fun x => decide (x = n)) ≤ 1 := by
  induction l with
  | nil => simp
  | cons y ys ih =>
    rcases List.nodup_cons.mp h with ⟨hy, hys⟩
    by_cases hyn : y = n
    · rw [List.countP_cons_of_pos _ _ (by simpa using hyn)]
      have hzero : ys.countP (fun x => decide (x = n)) = 0 := by
        rw [List.countP_eq_zero]
        intro a ha
        simp only [decide_eq_true_eq]
        intro han
        exact hy (by rwa [han, ← hyn] at ha)
      omega
    · rw [List.countP_cons_of_neg _ _ (by simpa using hyn)]
      exact ih hys

/-- C9: a schema in which some node has two (or more) producing edges fails
the construction-time validation: `wf` is false, so the schema is rejected at
assembly rather than silently picking one producer or failing at runtime. -/
theorem duplicate_producer_rejected (g : GraphSchema) (n : Nat)
    (h : 2 ≤ g.edges.countP (fun e => decide (e.dst = n))) :
    g.wf = false := by
  have hmap : (dsts g.edges).countP (fun x => decide (x = n))
      = g.edges.countP (fun e => decide (e.dst = n)) := by
    rw [dsts, List.countP_map]
    rfl
  have hnotnodup : ¬ (dsts g.edges).Nodup := by
    intro hnd
    have := countP_le_one_of_nodup (dsts g.edges) n hnd
    omega
  have hb : nodupB (dsts g.edges) = false := by
    cases hnb : nodupB (dsts g.edges) with
    | false => rfl
    | true => exact absurd (nodupB_nodup _ hnb) hnotnodup
  simp [GraphSchema.wf, hb]

/-- Closed instance of C9 on a two-producer schema. -/
theorem duplicate_producer_rejected_witness :
    (2 ≤ gDup.edges.countP (fun e => decide (e.dst = 1))) ∧ gDup.wf = false :=
  ⟨by decide, duplicate_producer_rejected gDup 1 (by decide)⟩

/-- C10: `TensorN<S>` is the nestor over the single-node schema of S and is
behaviorally the flat `Tensor<S>`: value access yields exactly the tensor's
payload, the degenerate forward and backward passes are the identity, and the
nestor view determines the tensor. -/
theorem tensorN_refines_tensor (s : Shape) (t : Tensor s)
    (h : contains_v 0 (singleSchema s).nodeIds = true) :
    ((TensorN.ofTensor t).get 0 h = t.data)
    ∧ (forwardVals (singleSchema s).edges (TensorN.ofTensor t).vals
        = (TensorN.ofTensor t).vals)
    ∧ (backwardGrads (singleSchema s).edges (TensorN.ofTensor t).grads
        = (TensorN.ofTensor t).grads)
    ∧ (∀ t' : Tensor s,
        (TensorN.ofTensor t).get 0 h = (TensorN.ofTensor t').get 0 h → t = t') := by
  refine ⟨by simp [Nestor.get, TensorN.ofTensor], rfl, rfl, fun t' ht => ?_⟩
  have hd : t.data = t'.data := by
    simpa [Nestor.get, TensorN.ofTensor] using ht
  cases t
  cases t'
  simpa using hd

/-- Closed instance of C10 on the two-element demonstration tensor. -/
theorem tensorN_refines_tensor_witness :
    (contains_v 0 (singleSchema shA).nodeIds = true)
    ∧ (((TensorN.ofTensor tA).get 0 (by decide) = tA.data)
    ∧ (forwardVals (singleSchema shA).edges (TensorN.ofTensor tA).vals
        = (TensorN.ofTensor tA).vals)
    ∧ (backwardGrads (singleSchema shA).edges (TensorN.ofTensor tA).grads
        = (TensorN.ofTensor tA).grads)
    ∧ (∀ t' : Tensor shA,
        (TensorN.ofTensor tA).get 0 (by decide) = (TensorN.ofTensor t').get 0 (by decide)
          → tA = t')) :=
  ⟨by decide, tensorN_refines_tensor shA tA (by decide)⟩

theorem getD_set_self {α : Type} (l : List α) (i : Nat) (a d : α)
    (h : i < l.length) : (l.set i a).getD i d = a := by
  induction l generalizing i with
  | nil => simp at h
  | cons x xs ih =>
    cases i with
    | zero => simp [List.getD]
    | succ j => simpa [List.getD] using ih j (by simpa using h)

/-- C6: a valid pullback is a pure view: applying it performs no allocation
and no mutation (the heap is returned unchanged), the view aliases the
source's buffer, and a mutation written through the source at the position a
view index maps to is observed when reading that view index. -/
theorem pullback_view_aliasing (Fr To : Shape) (h : Heap) (r : TRef)
    (i : Nat) (v : Int)
    (_hok : Pullback.ok Fr To = true)
    (hbuf : r.buf < h.bufs.length)
    (hidx : r.idxMap (toFlat Fr (fromFlat To i)) < (h.readBuf r.buf).length) :
    ((Pullback.apply Fr To h r).1 = h)
    ∧ ((Pullback.apply Fr To h r).2.buf = r.buf)
    ∧ (readT (writeT h r (toFlat Fr (fromFlat To i)) v)
        (Pullback.apply Fr To h r).2 i = v) := by
  refine ⟨rfl, rfl, ?_⟩
  show ((h.bufs.set r.buf
      ((h.readBuf r.buf).set (r.idxMap (toFlat Fr (fromFlat To i))) v)).getD r.buf
        []).getD (r.idxMap (toFlat Fr (fromFlat To i))) 0 = v
  rw [getD_set_self _ _ _ _ hbuf]
  exact getD_set_self _ _ _ _ hidx

/-- Closed instance of C6: a 4-element buffer viewed through a 2-element
pullback observes a write to the source. -/
theorem pullback_view_aliasing_witness :
    (Pullback.ok frPB toPB = true
      ∧ rPB.buf < hpPB.bufs.length
      ∧ rPB.idxMap (toFlat frPB (fromFlat toPB 1)) < (hpPB.readBuf rPB.buf).length)
    ∧ (((Pullback.apply frPB toPB hpPB rPB).1 = hpPB)
    ∧ ((Pullback.apply frPB toPB hpPB rPB).2.buf = rPB.buf)
    ∧ (readT (writeT hpPB rPB (toFlat frPB (fromFlat toPB 1)) 99)
        (Pullback.apply frPB toPB hpPB rPB).2 1 = 99)) :=
  ⟨⟨by decide, by decide, by decide⟩,
   pullback_view_aliasing frPB toPB hpPB rPB 1 99 (by decide) (by decide) (by decide)⟩

theorem dsts_cons (e : Edge) (rest : List Edge) :
    dsts (e :: rest) = e.dst :: dsts rest := rfl

theorem dsts_append (A B : List Edge) : dsts (A ++ B) = dsts A ++ dsts B :=
  List.map_append Edge.dst A B

theorem fwd_frame (todo : List Edge) (v : Nat → List Int) (n : Nat)
    (h : ¬ n ∈ dsts todo) : forwardVals todo v n = v n := by
  induction todo generalizing v with
  | nil => rfl
  | cons e rest ih =>
    rw [dsts_cons, List.mem_cons] at h
    push_neg at h
    show forwardVals rest (fstep v e) n = v n
    rw [ih (fstep v e) h.2]
    exact updateF_ne v e.dst n _ h.1

theorem fwd_correct (D : List Nat) (todo : List Edge) (P : List Nat)
    (v : Nat → List Int)
    (hnd : nodupB (dsts todo) = true) (htp : topoAux D P todo = true)
    (hP : ∀ m ∈ P, ¬ m ∈ dsts todo) (hD : ∀ m ∈ dsts todo, m ∈ D) :
    ∀ e ∈ todo, forwardVals todo v e.dst = e.op (e.srcs.map (forwardVals todo v)) := by
  induction todo generalizing P v with
  | nil => simp
  | cons e rest ih =>
    rw [dsts_cons] at hnd
    simp only [nodupB, Bool.and_eq_true, Bool.not_eq_true'] at hnd
    simp only [topoAux, Bool.and_eq_true] at htp
    have hdst : ¬ e.dst ∈ dsts rest := by
      intro hm
      rw [(contains_v_iff e.dst (dsts rest)).mpr hm] at hnd
      simp at hnd
    have hsrcLeaf : ∀ s ∈ e.srcs, ¬ s ∈ dsts (e :: rest) → True := fun _ _ _ => trivial
    have hsv : ∀ s ∈ e.srcs, forwardVals (e :: rest) v s = v s := by
      intro s hs
      have hcond := (List.all_eq_true.mp htp.1) s hs
      rw [Bool.or_eq_true, Bool.not_eq_true'] at hcond
      rcases hcond with hcond | hcond
      · exact fwd_frame _ v s (hP s ((contains_v_iff s P).mp hcond))
      · refine fwd_frame _ v s (fun hm => ?_)
        rw [(contains_v_iff s D).mpr (hD s hm)] at hcond
        simp at hcond
    intro e' he'
    rcases List.mem_cons.mp he' with he' | he'
    · subst he'
      have hmap : e'.srcs.map (forwardVals (e' :: rest) v) = e'.srcs.map v :=
        List.map_eq_map_iff.mpr (fun s hs => hsv s hs)
      rw [hmap]
      show forwardVals rest (fstep v e') e'.dst = e'.op (e'.srcs.map v)
      rw [fwd_frame rest (fstep v e') e'.dst hdst]
      exact updateF_self v e'.dst _
    · show forwardVals rest (fstep v e) e'.dst
        = e'.op (e'.srcs.map (forwardVals rest (fstep v e)))
      refine ih (e.dst :: P) (fstep v e) hnd.2 htp.2 ?_ ?_ e' he'
      · intro m hm
        rcases List.mem_cons.mp hm with hm | hm
        · exact hm ▸ hdst
        · intro hmr
          exact hP m hm (by rw [dsts_cons]; exact List.mem_cons_of_mem _ hmr)
      · intro m hm
        exact hD m (by rw [dsts_cons]; exact List.mem_cons_of_mem _ hm)

/-- C2: with the schema's edges stored in topological order and at most one
producer per node, `forward()` computes every edge's destination from the
final (already recomputed) values of its sources — every source is computed
before the edge runs and the stored result is what downstream edges read —
while leaf values are left untouched. -/
theorem forward_topo_consistent (edges : List Edge) (v : Nat → List Int)
    (ht : topoSorted edges = true) (hn : nodupB (dsts edges) = true) :
    (∀ e ∈ edges, forwardVals edges v e.dst = e.op (e.srcs.map (forwardVals edges v)))
    ∧ (∀ n, ¬ n ∈ dsts edges → forwardVals edges v n = v n) :=
  ⟨fwd_correct (dsts edges) edges [] v hn ht (by simp) (fun _ hm => hm),
   fun n hn' => fwd_frame edges v n hn'⟩

/-- Closed instance of C2 on the chain 0 → 1 → 2. -/
theorem forward_topo_consistent_witness :
    (topoSorted chainEdges = true ∧ nodupB (dsts chainEdges) = true)
    ∧ ((∀ e ∈ chainEdges,
          forwardVals chainEdges v0 e.dst = e.op (e.srcs.map (forwardVals chainEdges v0)))
    ∧ (∀ n, ¬ n ∈ dsts chainEdges → forwardVals chainEdges v0 n = v0 n)) :=
  ⟨⟨by decide, by decide⟩, forward_topo_consistent chainEdges v0 (by decide) (by decide)⟩

theorem fwd_agree (D : List Nat) (todo : List Edge) (P : List Nat)
    (v w : Nat → List Int)
    (htp : topoAux D P todo = true)
    (hvw : ∀ n, (n ∈ P ∨ ¬ n ∈ D) → v n = w n) :
    ∀ n, (n ∈ P ∨ ¬ n ∈ D ∨ n ∈ dsts todo) →
      forwardVals todo v n = forwardVals todo w n := by
  induction todo generalizing P v w with
  | nil =>
    intro n hcover
    rcases hcover with h | h | h
    · exact hvw n (Or.inl h)
    · exact hvw n (Or.inr h)
    · simp [dsts] at h
  | cons e rest ih =>
    simp only [topoAux, Bool.and_eq_true] at htp
    have hsame : e.op (e.srcs.map v) = e.op (e.srcs.map w) := by
      refine congrArg e.op (List.map_eq_map_iff.mpr (fun s hs => ?_))
      have hcond := (List.all_eq_true.mp htp.1) s hs
      rw [Bool.or_eq_true, Bool.not_eq_true'] at hcond
      rcases hcond with hcond | hcond
      · exact hvw s (Or.inl ((contains_v_iff s P).mp hcond))
      · refine hvw s (Or.inr (fun hm => ?_))
        rw [(contains_v_iff s D).mpr hm] at hcond
        simp at hcond
    have hvw1 : ∀ n, (n ∈ e.dst :: P ∨ ¬ n ∈ D) → fstep v e n = fstep w e n := by
      intro n hn
      by_cases hne : n = e.dst
      · subst hne
        rw [fstep, fstep, updateF_self, updateF_self]
        exact hsame
      · rw [fstep, fstep, updateF_ne _ _ _ _ hne, updateF_ne _ _ _ _ hne]
        rcases hn with hn | hn
        · rcases List.mem_cons.mp hn with hn | hn
          · exact absurd hn hne
          · exact hvw n (Or.inl hn)
        · exact hvw n (Or.inr hn)
    intro n hcover
    show forwardVals rest (fstep v e) n = forwardVals rest (fstep w e) n
    refine ih (e.dst :: P) (fstep v e) (fstep w e) htp.2 hvw1 n ?_
    rcases hcover with h | h | h
    · exact Or.inl (List.mem_cons_of_mem _ h)
    · exact Or.inr (Or.inl h)
    · rw [dsts_cons] at h
      rcases List.mem_cons.mp h with h | h
      · exact Or.inl (h ▸ List.mem_cons_self _ _)
      · exact Or.inr (Or.inr h)

/-- C7: `forward()` is idempotent: running it a second time with unchanged
leaf values leaves every node's value identical — the recomputation starts
from the preserved leaves and has no residual state. -/
theorem forward_idempotent (edges : List Edge) (v : Nat → List Int)
    (ht : topoSorted edges = true) :
    ∀ n, forwardVals edges (forwardVals edges v) n = forwardVals edges v n := by
  intro n
  by_cases hd : n ∈ dsts edges
  · refine fwd_agree (dsts edges) edges [] (forwardVals edges v) v ht
      (fun m hm => ?_) n (Or.inr (Or.inr hd))
    rcases hm with hm | hm
    · simp at hm
    · exact fwd_frame edges v m hm
  · rw [fwd_frame edges _ n hd, fwd_frame edges v n hd]

/-- Closed instance of C7 on the chain 0 → 1 → 2. -/
theorem forward_idempotent_witness :
    (topoSorted chainEdges = true)
    ∧ (∀ n, forwardVals chainEdges (forwardVals chainEdges v0) n
        = forwardVals chainEdges v0 n) :=
  ⟨by decide, forward_idempotent chainEdges v0 (by decide)⟩

theorem applyIncs_at (ps : List (Nat × List Int)) (gr : Nat → List Int)
    (n : Nat) : applyIncs gr ps n = List.foldl addVec (gr n) (pairIncs ps n) := by
  induction ps generalizing gr with
  | nil => rfl
  | cons p rest ih =>
    show applyIncs (updateF gr p.1 (addVec (gr p.1) p.2)) rest n
      = List.foldl addVec (gr n) (pairIncs (p :: rest) n)
    by_cases hp : p.1 = n
    · subst hp
      rw [ih]
      have hpair : pairIncs (p :: rest) p.1 = p.2 :: pairIncs rest p.1 := by
        simp [pairIncs, List.filter_cons]
      rw [hpair, List.foldl_cons, updateF_self]
    · rw [ih]
      have hpair : pairIncs (p :: rest) n = pairIncs rest n := by
        simp [pairIncs, List.filter_cons, hp]
      rw [hpair, updateF_ne _ _ _ _ (fun h => hp h.symm)]

theorem bfold_acc (L : List Edge) (gr : Nat → List Int) (n : Nat) :
    List.foldl bstep gr L n = List.foldl addVec (gr n) (bIncs L gr n) := by
  induction L generalizing gr with
  | nil => rfl
  | cons e rest ih =>
    rw [List.foldl_cons, ih, bIncs, List.foldl_append]
    congr 1
    exact applyIncs_at _ gr n

theorem applyIncs_frame (ps : List (Nat × List Int)) (gr : Nat → List Int)
    (n : Nat) (h : ∀ p ∈ ps, p.1 ≠ n) : applyIncs gr ps n = gr n := by
  induction ps generalizing gr with
  | nil => rfl
  | cons p rest ih =>
    show applyIncs (updateF gr p.1 (addVec (gr p.1) p.2)) rest n = gr n
    rw [ih _ (fun q hq => h q (List.mem_cons_of_mem _ hq))]
    exact updateF_ne _ _ _ _ (fun hn => (h p (List.mem_cons_self _ _)) hn.symm)

theorem bstep_frame (gr : Nat → List Int) (e : Edge) (n : Nat)
    (h : ¬ n ∈ e.srcs) : bstep gr e n = gr n := by
  refine applyIncs_frame _ _ _ (fun p hp hpn => ?_)
  exact h (hpn ▸ (List.of_mem_zip hp).1)

theorem bfold_frame (L : List Edge) (gr : Nat → List Int) (n : Nat)
    (h : ∀ e ∈ L, ¬ n ∈ e.srcs) : List.foldl bstep gr L n = gr n := by
  induction L generalizing gr with
  | nil => rfl
  | cons e rest ih =>
    rw [List.foldl_cons, ih _ (fun e' he' => h e' (List.mem_cons_of_mem _ he'))]
    exact bstep_frame gr e n (h e (List.mem_cons_self _ _))

/-- C4: `backward()` only accumulates: every gradient slot ends as its prior
content with the pass's contributions for that node folded in by add-assign
(the contributions being what each edge's adjoint produced from the
destination's current gradient), and a node that is no edge's source keeps
its gradient untouched — nothing is ever reset to zero, so a client may
accumulate gradients across multiple forward/backward cycles. -/
theorem backward_only_accumulates (edges : List Edge) (gr : Nat → List Int)
    (n : Nat) :
    (backwardGrads edges gr n
      = List.foldl addVec (gr n) (bIncs edges.reverse gr n))
    ∧ ((∀ e ∈ edges, ¬ n ∈ e.srcs) → backwardGrads edges gr n = gr n) :=
  ⟨bfold_acc edges.reverse gr n,
   fun h => bfold_frame edges.reverse gr n
     (fun e he => h e (List.mem_reverse.mp he))⟩

/-- Closed instance of C4 on the chain 0 → 1 → 2, observed at leaf node 0. -/
theorem backward_only_accumulates_witness :
    (backwardGrads chainEdges g0 0
      = List.foldl addVec (g0 0) (bIncs chainEdges.reverse g0 0))
    ∧ ((∀ e ∈ chainEdges, ¬ 0 ∈ e.srcs) → backwardGrads chainEdges g0 0 = g0 0) :=
  backward_only_accumulates chainEdges g0 0

theorem topoAux_mem (D : List Nat) (xs : List Edge) (P : List Nat) (e : Edge)
    (ys : List Edge) (h : topoAux D P (xs ++ e :: ys) = true) :
    ∀ s ∈ e.srcs, s ∈ dsts xs ∨ s ∈ P ∨ ¬ s ∈ D := by
  induction xs generalizing P with
  | nil =>
    simp only [List.nil_append, topoAux, Bool.and_eq_true] at h
    intro s hs
    have hcond := (List.all_eq_true.mp h.1) s hs
    rw [Bool.or_eq_true, Bool.not_eq_true'] at hcond
    rcases hcond with hcond | hcond
    · exact Or.inr (Or.inl ((contains_v_iff s P).mp hcond))
    · refine Or.inr (Or.inr (fun hm => ?_))
      rw [(contains_v_iff s D).mpr hm] at hcond
      simp at hcond
  | cons x xs' ih =>
    simp only [List.cons_append, topoAux, Bool.and_eq_true] at h
    intro s hs
    rcases ih (x.dst :: P) h.2 s hs with hd | hp | hnD
    · exact Or.inl (by rw [dsts_cons]; exact List.mem_cons_of_mem _ hd)
    · rcases List.mem_cons.mp hp with hp | hp
      · exact Or.inl (by rw [dsts_cons, hp]; exact List.mem_cons_self _ _)
      · exact Or.inr (Or.inl hp)
    · exact Or.inr (Or.inr hnD)

/-- C3: `backward()` processes the edge list in reverse topological order, and
when an edge's adjoint is invoked the gradient of its destination node is
already finalized: the destination's gradient at that moment equals its value
after the whole backward pass, because every consumer of that node has
already run and no later step touches it. -/
theorem backward_dest_finalized (edges : List Edge) (gr : Nat → List Int)
    (l1 : List Edge) (e : Edge) (l2 : List Edge)
    (ht : topoSorted edges = true) (hn : nodupB (dsts edges) = true)
    (hsplit : edges.reverse = l1 ++ e :: l2) :
    List.foldl bstep gr l1 e.dst = backwardGrads edges gr e.dst := by
  have hedges : edges = l2.reverse ++ e :: l1.reverse := by
    have h1 := congrArg List.reverse hsplit
    rw [List.reverse_reverse] at h1
    rw [h1]
    simp [List.reverse_append]
  have hnd : (dsts edges).Nodup := nodupB_nodup _ hn
  have heD : e.dst ∈ dsts edges := by
    rw [hedges, dsts_append, dsts_cons]
    exact List.mem_append_right _ (List.mem_cons_self _ _)
  have hmid : ¬ e.dst ∈ dsts l2.reverse := by
    intro hm
    rw [hedges, dsts_append, dsts_cons, List.nodup_append] at hnd
    exact hnd.2.2 hm (List.mem_cons_self _ _)
  have ht' : topoAux (dsts edges) [] edges = true := ht
  have hA : ¬ e.dst ∈ e.srcs := by
    intro hm
    rcases topoAux_mem (dsts edges) l2.reverse [] e l1.reverse
        (by rw [← hedges]; exact ht') e.dst hm with hd | hp | hnD
    · exact hmid hd
    · simp at hp
    · exact hnD heD
  have hB : ∀ e' ∈ l2, ¬ e.dst ∈ e'.srcs := by
    intro e' he' hm
    obtain ⟨a, b, hab⟩ := List.mem_iff_append.mp (List.mem_reverse.mpr he')
    have hedges2 : edges = a ++ e' :: (b ++ e :: l1.reverse) := by
      rw [hedges, hab]
      simp
    rcases topoAux_mem (dsts edges) a [] e' (b ++ e :: l1.reverse)
        (by rw [← hedges2]; exact ht') e.dst hm with hd | hp | hnD
    · refine hmid ?_
      rw [hab, dsts_append]
      exact List.mem_append_left _ hd
    · simp at hp
    · exact hnD heD
  have hcalc : backwardGrads edges gr e.dst = List.foldl bstep gr l1 e.dst := by
    rw [backwardGrads, hsplit, List.foldl_append, List.foldl_cons]
    rw [bfold_frame l2 _ e.dst hB]
    exact bstep_frame _ e e.dst hA
  exact hcalc.symm

/-- Closed instance of C3 on the chain 0 → 1 → 2: when the adjoint of the
first edge runs (last in the reverse order), node 1's gradient already equals
its final value. -/
theorem backward_dest_finalized_witness :
    (topoSorted chainEdges = true ∧ nodupB (dsts chainEdges) = true
      ∧ chainEdges.reverse = [eBC] ++ eAB :: [])
    ∧ List.foldl bstep g0 [eBC] eAB.dst = backwardGrads chainEdges g0 eAB.dst :=
  ⟨⟨by decide, by decide, rfl⟩,
   backward_dest_finalized chainEdges g0 [eBC] eAB [] (by decide) (by decide) rfl⟩

theorem mem_allCoords_cons (t : Thread) (ts : Shape) (c : List Nat) :
    c ∈ allCoords (t :: ts)
      ↔ ∃ i cs, c = i :: cs ∧ i < t.extent ∧ cs ∈ allCoords ts := by
  simp only [allCoords]
  constructor
  · intro h
    rcases List.mem_flatMap.mp h with ⟨i, hi, hc⟩
    rcases List.mem_map.mp hc with ⟨cs, hcs, heq⟩
    exact ⟨i, cs, heq.symm, List.mem_range.mp hi, hcs⟩
  · rintro ⟨i, cs, rfl, hi, hcs⟩
    exact List.mem_flatMap.mpr
      ⟨i, List.mem_range.mpr hi, List.mem_map.mpr ⟨cs, hcs, rfl⟩⟩

theorem allCoords_length_mem (s : Shape) (c : List Nat) (h : c ∈ allCoords s) :
    c.length = s.length := by
  induction s generalizing c with
  | nil =>
    simp only [allCoords, List.mem_singleton] at h
    subst h
    rfl
  | cons t ts ih =>
    rcases (mem_allCoords_cons t ts c).mp h with ⟨i, cs, rfl, _, hcs⟩
    simp [ih cs hcs]

theorem allCoords_nodup (s : Shape) : (allCoords s).Nodup := by
  induction s with
  | nil => simp [allCoords]
  | cons t ts ih =>
    simp only [allCoords]
    refine List.nodup_flatMap.mpr ⟨fun i _ => ?_, ?_⟩
    · refine List.Nodup.map ?_ ih
      intro a b hab
      injection hab
    · refine (List.pairwise_lt_range t.extent).imp ?_
      intro a b hab
      simp only [Function.onFun]
      intro c hca hcb
      rcases List.mem_map.mp hca with ⟨ca, _, rfl⟩
      rcases List.mem_map.mp hcb with ⟨cb, _, hcb2⟩
      injection hcb2 with h1 _
      omega

theorem allCoords_append_split (s u : Shape) (c : List Nat)
    (h : c ∈ allCoords (s ++ u)) :
    ∃ a b, c = a ++ b ∧ a ∈ allCoords s ∧ b ∈ allCoords u := by
  induction s generalizing c with
  | nil => exact ⟨[], c, rfl, by simp [allCoords], h⟩
  | cons t ts ih =>
    rcases (mem_allCoords_cons t (ts ++ u) c).mp h with ⟨i, cs, rfl, hi, hcs⟩
    rcases ih cs hcs with ⟨a, b, rfl, ha, hb⟩
    exact ⟨i :: a, b, rfl,
      (mem_allCoords_cons t ts (i :: a)).mpr ⟨i, a, rfl, hi, ha⟩, hb⟩

theorem nodup_filter_single {α : Type} [DecidableEq α] (l : List α) (a : α)
    (hnd : l.Nodup) (ha : a ∈ l) :
    l.filter (fun x => decide (x = a)) = [a] := by
  induction l with
  | nil => simp at ha
  | cons x xs ih =>
    rcases List.nodup_cons.mp hnd with ⟨hx, hxs⟩
    rcases List.mem_cons.mp ha with rfl | ha'
    · have h0 : xs.filter (fun y => decide (y = a)) = [] := by
        refine List.filter_eq_nil_iff.mpr (fun y hy => ?_)
        simp only [decide_eq_true_eq]
        intro h
        exact hx (h ▸ hy)
      simp [List.filter_cons, h0]
    · have hxa : x ≠ a := fun h => hx (h ▸ ha')
      simp [List.filter_cons, hxa, ih hxs ha']

theorem flatMap_range_single {α : Type} (n : Nat) (f : Nat → List α) (i : Nat)
    (hi : i < n) (hf : ∀ j, j < n → j ≠ i → f j = []) :
    (List.range n).flatMap f = f i := by
  induction n with
  | zero => exact (Nat.not_lt_zero i hi).elim
  | succ m ih =>
    rw [List.range_succ, List.flatMap_append]
    by_cases him : i = m
    · subst him
      have h1 : (List.range i).flatMap f = [] :=
        List.flatMap_eq_nil_iff.mpr (fun j hj =>
          hf j (Nat.lt_succ_of_lt (List.mem_range.mp hj))
            (Nat.ne_of_lt (List.mem_range.mp hj)))
      simp [h1]
    · have him' : i < m := by omega
      rw [ih him' (fun j hj hne => hf j (Nat.lt_succ_of_lt hj) hne)]
      have h2 : f m = [] := hf m (Nat.lt_succ_self m) (fun h => him h.symm)
      simp [h2]

theorem proj_cons (f : Thread) (fr tl : Shape) (j : Nat) (b : List Nat) :
    proj (f :: fr) (f :: tl) (j :: b) = j :: proj fr tl b := by
  simp [proj]

theorem proj_skip (f : Thread) (fr tl : Shape) (j : Nat) (b : List Nat)
    (hfresh : ∀ t ∈ tl, f.id ≠ t.id) :
    proj (f :: fr) tl (j :: b) = proj fr tl b := by
  cases tl with
  | nil => simp [proj]
  | cons t ts =>
    have hne : f ≠ t :=
      fun h => hfresh t (List.mem_cons_self _ _) (by rw [h])
    simp [proj, hne]

theorem proj_refl (s : Shape) (c : List Nat) (h : c.length = s.length) :
    proj s s c = c := by
  induction s generalizing c with
  | nil =>
    cases c with
    | nil => rfl
    | cons i is => simp at h
  | cons t ts ih =>
    cases c with
    | nil => simp at h
    | cons i is =>
      rw [proj_cons, ih is (by simpa using h)]

theorem pf_filter (extra : Thread) (To1 To2 : Shape) (c1 c2 : List Nat)
    (hfresh : ∀ t ∈ To1 ++ To2, extra.id ≠ t.id)
    (hc1 : c1 ∈ allCoords To1) (hc2 : c2 ∈ allCoords To2) :
    (allCoords (To1 ++ extra :: To2)).filter
        (fun cf => decide (proj (To1 ++ extra :: To2) (To1 ++ To2) cf = c1 ++ c2))
      = (List.range extra.extent).map (fun j => c1 ++ j :: c2) := by
  induction To1 generalizing c1 with
  | nil =>
    have hc1' : c1 = [] := by simpa [allCoords] using hc1
    subst hc1'
    simp only [List.nil_append]
    simp only [allCoords]
    rw [List.filter_flatMap]
    have hinner : ∀ i, ((allCoords To2).map (fun c => i :: c)).filter
        (fun cf => decide (proj (extra :: To2) To2 cf = c2)) = [i :: c2] := by
      intro i
      rw [List.filter_map]
      have hcong : List.filter
          ((fun cf => decide (proj (extra :: To2) To2 cf = c2)) ∘ (fun c => i :: c))
          (allCoords To2)
          = List.filter (fun b => decide (b = c2)) (allCoords To2) := by
        refine List.filter_congr (fun b hb => ?_)
        simp only [Function.comp_apply]
        rw [proj_skip extra To2 To2 i b (fun t ht => hfresh t ht),
          proj_refl To2 b (allCoords_length_mem To2 b hb)]
      rw [hcong, nodup_filter_single (allCoords To2) c2 (allCoords_nodup To2) hc2]
      rfl
    refine Eq.trans (List.flatMap_congr (fun i _ => hinner i)) ?_
    exact (List.map_eq_flatMap _ _).symm
  | cons t ts1 ih =>
    rcases (mem_allCoords_cons t ts1 c1).mp hc1 with ⟨i, is, rfl, hi, his⟩
    have hfresh' : ∀ u ∈ ts1 ++ To2, extra.id ≠ u.id :=
      fun u hu => hfresh u (List.mem_cons_of_mem t hu)
    simp only [List.cons_append]
    simp only [allCoords]
    rw [List.filter_flatMap]
    refine Eq.trans (flatMap_range_single t.extent _ i hi ?_) ?_
    · intro j hj hji
      refine List.filter_eq_nil_iff.mpr (fun cf hcf => ?_)
      rcases List.mem_map.mp hcf with ⟨cs, _, rfl⟩
      simp only [proj_cons]
      simp [hji]
    · rw [List.filter_map]
      have hcong : List.filter
          ((fun cf => decide (proj (t :: (ts1 ++ extra :: To2)) (t :: (ts1 ++ To2)) cf
              = i :: (is ++ c2))) ∘ (fun c => i :: c))
          (allCoords (ts1 ++ extra :: To2))
          = List.filter (fun cf => decide (proj (ts1 ++ extra :: To2) (ts1 ++ To2) cf
              = is ++ c2)) (allCoords (ts1 ++ extra :: To2)) := by
        refine List.filter_congr (fun b hb => ?_)
        simp only [Function.comp_apply, proj_cons]
        exact decide_eq_decide.mpr (by simp)
      rw [hcong, ih is hfresh' his, List.map_map]
      rfl

theorem pfData_insert (extra : Thread) (To1 To2 : Shape) (inp : Nat → Int)
    (hfresh : ∀ t ∈ To1 ++ To2, extra.id ≠ t.id) :
    pfData (To1 ++ extra :: To2) (To1 ++ To2) inp
      = (allCoords (To1 ++ To2)).map (fun c =>
          ((List.range extra.extent).map
            (fun j => inp (toFlat (To1 ++ extra :: To2)
              (c.take To1.length ++ j :: c.drop To1.length)))).sum) := by
  simp only [pfData]
  refine List.map_eq_map_iff.mpr (fun c hc => ?_)
  rcases allCoords_append_split To1 To2 c hc with ⟨a, b, rfl, ha, hb⟩
  have hlen : a.length = To1.length := allCoords_length_mem To1 a ha
  rw [pf_filter extra To1 To2 a b hfresh ha hb, List.map_map,
    ← hlen, List.take_left, List.drop_left]
  rfl

theorem pushOK_refl (s : Shape) : Pushforward.ok s s = true := by
  induction s with
  | nil => rfl
  | cons t ts ih => simp [Pushforward.ok, ih]

theorem pushOK_skip (extra : Thread) (s : Shape)
    (hfresh : ∀ t ∈ s, extra.id ≠ t.id) :
    Pushforward.ok (extra :: s) s = true := by
  cases s with
  | nil => rfl
  | cons t ts =>
    have hne : extra ≠ t :=
      fun h => hfresh t (List.mem_cons_self _ _) (by rw [h])
    simp [Pushforward.ok, hne, pushOK_refl]

theorem pushOK_shared (s a b : Shape) :
    Pushforward.ok (s ++ a) (s ++ b) = Pushforward.ok a b := by
  induction s with
  | nil => rfl
  | cons t ts ih => simp [Pushforward.ok, ih]

/-- C5: for a valid pushforward whose source shape is the target shape with
exactly one extra thread of extent n inserted (a fresh identity, as the shape
invariant requires), `apply` materializes a fresh buffer (appended to the
heap, never aliasing the input reference) whose element at each retained
coordinate is the sum of the n input elements whose retained-axis coordinates
match it; the payload is a pure function of the input reader, hence
deterministic. -/
theorem pushforward_sum_reduction (To1 To2 : Shape) (extra : Thread)
    (h : Heap) (r : TRef)
    (hfresh : ∀ t ∈ To1 ++ To2, extra.id ≠ t.id) :
    (Pushforward.ok (To1 ++ extra :: To2) (To1 ++ To2) = true)
    ∧ (Pushforward.apply (To1 ++ extra :: To2) (To1 ++ To2) h r
        = (⟨h.bufs ++ [pfData (To1 ++ extra :: To2) (To1 ++ To2) (srcInp h r)]⟩,
           ⟨To1 ++ To2, h.bufs.length, fun i => i⟩))
    ∧ (∀ inp, pfData (To1 ++ extra :: To2) (To1 ++ To2) inp
        = (allCoords (To1 ++ To2)).map (fun c =>
            ((List.range extra.extent).map
              (fun j => inp (toFlat (To1 ++ extra :: To2)
                (c.take To1.length ++ j :: c.drop To1.length)))).sum))
    ∧ (r.buf < h.bufs.length →
        (Pushforward.apply (To1 ++ extra :: To2) (To1 ++ To2) h r).2.buf ≠ r.buf) := by
  refine ⟨?_, rfl, fun inp => pfData_insert extra To1 To2 inp hfresh, fun hlt => Nat.ne_of_gt hlt⟩
  rw [pushOK_shared To1 (extra :: To2) To2]
  exact pushOK_skip extra To2
    (fun t ht => hfresh t (List.mem_append_right To1 ht))

/-- Closed instance of C5: summing a 3 × 2 input over its first axis. -/
theorem pushforward_sum_reduction_witness :
    (∀ t ∈ ([] : Shape) ++ toPF, exPF.id ≠ t.id)
    ∧ ((Pushforward.ok (([] : Shape) ++ exPF :: toPF) (([] : Shape) ++ toPF) = true)
    ∧ (Pushforward.apply (([] : Shape) ++ exPF :: toPF) (([] : Shape) ++ toPF) hpPF rPF
        = (⟨hpPF.bufs ++ [pfData (([] : Shape) ++ exPF :: toPF) (([] : Shape) ++ toPF)
            (srcInp hpPF rPF)]⟩,
           ⟨([] : Shape) ++ toPF, hpPF.bufs.length, fun i => i⟩))
    ∧ (∀ inp, pfData (([] : Shape) ++ exPF :: toPF) (([] : Shape) ++ toPF) inp
        = (allCoords (([] : Shape) ++ toPF)).map (fun c =>
            ((List.range exPF.extent).map
              (fun j => inp (toFlat (([] : Shape) ++ exPF :: toPF)
                (c.take ([] : Shape).length ++ j :: c.drop ([] : Shape).length)))).sum))
    ∧ (rPF.buf < hpPF.bufs.length →
        (Pushforward.apply (([] : Shape) ++ exPF :: toPF) (([] : Shape) ++ toPF)
          hpPF rPF).2.buf ≠ rPF.buf)) :=
  ⟨by decide, pushforward_sum_reduction [] toPF exPF hpPF rPF (by decide)⟩
